import Mathlib

/-!
# Verification of the PDF file-size scanner (`file_size.py`)

Shallow embedding of the core of `file_size.py`:

* `iter_pdf_files` — the depth-bounded, stack-driven directory walk
  (source lines 62–92);
* `scan_pdfs` — record construction, the stable sort on
  `(-size_bytes, filename.lower())`, and rank renumbering (lines 95–128);
* `export_to_excel` — the cell contents of the two report sheets
  (lines 131–220; visual formatting such as fonts, column widths and
  freeze panes is presentation state and is not modelled).

Modelling conventions:

* A filesystem path is a list of name components.  The supplied scan root
  and its symlink-resolved form (`Path.resolve`, an OS call) are separate
  inputs `rootGiven`/`rootResolved`; the walk yields paths relative to
  the resolved root, exactly as `os.scandir` enumerates under the
  resolved root in the source.
* A directory entry records what the OS calls in the source would answer:
  `Entry.file name stat isLink` is an entry for which
  `is_file(follow_symlinks=False)` returns `!isLink` (a symlink to a file
  answers `False` to both type tests), with `stat` the answer of
  `Path.stat()` (`none` when stat raises, e.g. a vanished file);
  `Entry.dir name isLink listErr children` is a directory entry whose
  `os.scandir` either fails with `listErr` or returns `children`;
  `Entry.denied name` is an entry whose type test raises
  `PermissionError`; `Entry.other name` is neither file nor directory
  (fifo, socket, broken symlink, ...).
* `mtime` is carried as the already-formatted timestamp string
  (`time.strftime` of `st_mtime` is an OS/locale call).
* Python floats are modelled as `ℚ`; `round(x, 3)` is `round3`.
* `results.sort(key=...)` is a stable sort by the key
  `(-size_bytes, filename.lower())`; it is modelled with the stable
  `List.insertionSort` on the corresponding total preorder.
-/

/-- Errors that `os.scandir` can raise in the source: `PermissionError`
(the only one caught by the walk), `FileNotFoundError` (vanished
directory / missing root) and `NotADirectoryError` (root is a file). -/
inductive OSErr where
  | permission
  | notFound
  | notADir
deriving DecidableEq, Repr

/-- What `Path.stat()` answers for a file: exact byte size and the
already-formatted modification timestamp. -/
structure StatInfo where
  size : Nat
  mtime : String
deriving DecidableEq, Repr

/-- One directory entry as seen through the OS calls made by the walk. -/
inductive Entry where
  | file (name : String) (stat : Option StatInfo) (isLink : Bool)
  | dir (name : String) (isLink : Bool) (listErr : Option OSErr) (children : List Entry)
  | denied (name : String)
  | other (name : String)

/-- A path yielded by `iter_pdf_files`: directory components relative to
the resolved root, the file name, and what a later `stat` will answer. -/
structure YieldedFile where
  relPath : List String
  name : String
  stat : Option StatInfo
deriving DecidableEq, Repr

/-- One item of the explicit walk stack `stack: List[Tuple[Path, int]]`
(line 70): the directory's path relative to the resolved root, its depth
`d`, and what listing it will produce. -/
structure StackItem where
  path : List String
  d : Nat
  listErr : Option OSErr
  children : List Entry

/-- `str.lower()`: Python strings are sequences of code points; lowering
maps each character. -/
def pyLower (s : String) : String := ⟨s.data.map Char.toLower⟩

/-- Python's `<=` on strings: lexicographic comparison of code points. -/
def lexLE : List Char → List Char → Bool
  | [], _ => true
  | _ :: _, [] => false
  | a :: as, b :: bs => a.toNat < b.toNat || (a.toNat = b.toNat && lexLE as bs)

/-- `entry.name.lower().endswith(".pdf")` (line 83). -/
def isPdfName (s : String) : Bool :=
  List.isSuffixOf ".pdf".data (pyLower s).data

/-- The body of the `for entry in it` loop (lines 76–90) over one listed
directory: the files yielded from this directory (in listing order) and
the subdirectories pushed onto the stack (in listing order; the caller
reverses them so that the last push is popped first, as `list.append` /
`list.pop` do). -/
def dirStep (p : List String) (d : Nat) (depth : Nat) :
    List Entry → List YieldedFile × List StackItem
  | [] => ([], [])
  | e :: es =>
    let rest := dirStep p d depth es
    match e with
    | .file name stat isLink =>
        if !isLink && isPdfName name then (⟨p, name, stat⟩ :: rest.1, rest.2)
        else rest
    | .dir name isLink lerr cs =>
        if !isLink && d < depth then (rest.1, ⟨p ++ [name], d + 1, lerr, cs⟩ :: rest.2)
        else rest
    | .denied _ => rest
    | .other _ => rest

mutual

/-- Size measure of an entry, for termination of the walk. -/
def entryWeight : Entry → Nat
  | .file _ _ _ => 1
  | .denied _ => 1
  | .other _ => 1
  | .dir _ _ _ cs => 1 + entryWeightList cs

/-- Size measure of a list of entries. -/
def entryWeightList : List Entry → Nat
  | [] => 0
  | e :: es => entryWeight e + entryWeightList es

end

/-- Size measure of the walk stack. -/
def stackWeight : List StackItem → Nat
  | [] => 0
  | it :: rest => 1 + entryWeightList it.children + stackWeight rest

theorem stackWeight_append (a b : List StackItem) :
    stackWeight (a ++ b) = stackWeight a + stackWeight b := by
  induction a with
  | nil => simp [stackWeight]
  | cons it rest ih => simp [stackWeight, ih]; omega

theorem stackWeight_reverse (a : List StackItem) :
    stackWeight a.reverse = stackWeight a := by
  induction a with
  | nil => rfl
  | cons it rest ih =>
      simp [List.reverse_cons, stackWeight_append, stackWeight, ih]; omega

theorem dirStep_weight (p : List String) (d depth : Nat) (es : List Entry) :
    stackWeight (dirStep p d depth es).2 ≤ entryWeightList es := by
  induction es with
  | nil => simp [dirStep, stackWeight]
  | cons e es ih =>
      cases e with
      | file name stat isLink =>
          by_cases h : (!isLink && isPdfName name) = true <;>
            simp [dirStep, h, entryWeightList, entryWeight] <;> omega
      | dir name isLink lerr cs =>
          by_cases h : (!isLink && d < depth) = true <;>
            simp [dirStep, h, stackWeight, entryWeightList, entryWeight] <;> omega
      | denied name => simp [dirStep, entryWeightList, entryWeight]; omega
      | other name => simp [dirStep, entryWeightList, entryWeight]; omega

/-- The `while stack:` loop of `iter_pdf_files` (lines 72–92).  Popping an
item whose listing raises `PermissionError` skips it (`continue`,
line 91); any other listing error propagates out of the generator and
aborts the whole walk; otherwise the directory's files are yielded and
its subdirectories (those with `d < depth`) are pushed. -/
def walkAux (depth : Nat) : List StackItem → Except OSErr (List YieldedFile)
  | [] => .ok []
  | it :: rest =>
    match it.listErr with
    | some .permission => walkAux depth rest
    | some .notFound => .error .notFound
    | some .notADir => .error .notADir
    | none =>
      let step := dirStep it.path it.d depth it.children
      match walkAux depth (step.2.reverse ++ rest) with
      | .ok more => .ok (step.1 ++ more)
      | .error e => .error e
termination_by stack => stackWeight stack
decreasing_by
  · simp only [stackWeight]; omega
  · have h := dirStep_weight it.path it.d depth it.children
    simp [stackWeight_append, stackWeight_reverse, stackWeight]
    omega

/-- `iter_pdf_files(root, depth)` (lines 62–92): negative depth is clamped
to 0 (lines 65–66) and the walk starts from the stack `[(root, 0)]`.  The
root directory is given by what listing it answers (`rootErr`,
`rootChildren`); yielded paths are relative to the resolved root. -/
def iter_pdf_files (rootErr : Option OSErr) (rootChildren : List Entry)
    (depth : Int) : Except OSErr (List YieldedFile) :=
  let depthN : Nat := if depth < 0 then 0 else depth.toNat
  walkAux depthN [⟨[], 0, rootErr, rootChildren⟩]

/-- `str` of a relative `Path` built from components (empty → `"."`). -/
def renderRel : List String → String
  | [] => "."
  | ps => String.intercalate "/" ps

/-- `str` of an absolute POSIX `Path` built from components. -/
def renderAbs (ps : List String) : String := "/" ++ String.intercalate "/" ps

/-- `_safe_relpath(child, root)` (lines 54–59): `child.relative_to(root)`
succeeds exactly when `root`'s components are a prefix of `child`'s, in
which case the relative remainder is rendered; otherwise the absolute
`child` itself is rendered (`str(child)`). -/
def _safe_relpath (child root : List String) : String :=
  if List.isPrefixOf root child then renderRel (child.drop root.length)
  else renderAbs child

/-- `round(q, 3)` on the rational model of Python floats. -/
def round3 (q : ℚ) : ℚ := (round (q * 1000) : ℤ) / 1000

/-- `_human_mb` (lines 50–51). -/
def _human_mb (size_bytes : Nat) : ℚ :=
  round3 ((size_bytes : ℚ) / (1024 * 1024))

/-- `ScanResult` (lines 39–47). -/
structure ScanResult where
  index : Nat
  rel_dir : String
  filename : String
  size_bytes : Nat
  size_mb : ℚ
  full_path : String
  mtime : String
deriving DecidableEq, Repr

/-- The loop of `scan_pdfs` over the yielded paths (lines 98–119): a path
whose stat fails is skipped; otherwise a record is built, with
`rel_dir = _safe_relpath(p.parent, root)` against the root *as supplied*
(`rootGiven`), mapped to `""` when it is `"."`, while `p` itself lives
under the resolved root (`rootResolved`).  `idx` mirrors the running
`idx` counter (its value is overwritten by the renumbering later). -/
def buildResults (rootGiven rootResolved : List String) :
    List YieldedFile → Nat → List ScanResult
  | [], _ => []
  | y :: ys, idx =>
    match y.stat with
    | none => buildResults rootGiven rootResolved ys idx
    | some st =>
      let parent := rootResolved ++ y.relPath
      let rel := _safe_relpath parent rootGiven
      { index := idx + 1
        rel_dir := if rel = "." then "" else rel
        filename := y.name
        size_bytes := st.size
        size_mb := _human_mb st.size
        full_path := renderAbs (parent ++ [y.name])
        mtime := st.mtime } :: buildResults rootGiven rootResolved ys (idx + 1)

theorem lexLE_total (as bs : List Char) : lexLE as bs = true ∨ lexLE bs as = true := by
  induction as generalizing bs with
  | nil => exact Or.inl rfl
  | cons a as ih =>
      cases bs with
      | nil => exact Or.inr rfl
      | cons b bs =>
          simp only [lexLE, Bool.or_eq_true, Bool.and_eq_true, decide_eq_true_eq]
          rcases Nat.lt_trichotomy a.toNat b.toNat with h | h | h
          · exact Or.inl (Or.inl h)
          · rcases ih bs with h2 | h2
            · exact Or.inl (Or.inr ⟨h, h2⟩)
            · exact Or.inr (Or.inr ⟨h.symm, h2⟩)
          · exact Or.inr (Or.inl h)

theorem lexLE_trans {as bs cs : List Char} (h1 : lexLE as bs = true)
    (h2 : lexLE bs cs = true) : lexLE as cs = true := by
  induction as generalizing bs cs with
  | nil => rfl
  | cons a as ih =>
      cases bs with
      | nil => simp [lexLE] at h1
      | cons b bs =>
          cases cs with
          | nil => simp [lexLE] at h2
          | cons c cs =>
              simp only [lexLE, Bool.or_eq_true, Bool.and_eq_true,
                decide_eq_true_eq] at h1 h2 ⊢
              rcases h1 with h1 | ⟨e1, r1⟩ <;> rcases h2 with h2 | ⟨e2, r2⟩
              · exact Or.inl (by omega)
              · exact Or.inl (by omega)
              · exact Or.inl (by omega)
              · exact Or.inr ⟨by omega, ih r1 r2⟩

/-- The sort key order of line 122: ascending in
`(-size_bytes, filename.lower())`, i.e. bigger files first, ties by
case-insensitive name. -/
def resultOrder (a b : ScanResult) : Prop :=
  b.size_bytes < a.size_bytes ∨
    (a.size_bytes = b.size_bytes ∧
      lexLE (pyLower a.filename).data (pyLower b.filename).data = true)

instance decResultOrder : DecidableRel resultOrder := fun a b =>
  inferInstanceAs (Decidable (_ ∨ _ ∧ _))

instance totalResultOrder : IsTotal ScanResult resultOrder where
  total a b := by
    unfold resultOrder
    rcases lt_trichotomy a.size_bytes b.size_bytes with h | h | h
    · exact Or.inr (Or.inl h)
    · rcases lexLE_total (pyLower a.filename).data (pyLower b.filename).data with h2 | h2
      · exact Or.inl (Or.inr ⟨h, h2⟩)
      · exact Or.inr (Or.inr ⟨h.symm, h2⟩)
    · exact Or.inl (Or.inl h)

instance transResultOrder : IsTrans ScanResult resultOrder where
  trans a b c hab hbc := by
    unfold resultOrder at *
    rcases hab with h1 | ⟨e1, n1⟩ <;> rcases hbc with h2 | ⟨e2, n2⟩
    · exact Or.inl (by omega)
    · exact Or.inl (by omega)
    · exact Or.inl (by omega)
    · exact Or.inr ⟨by omega, lexLE_trans n1 n2⟩

/-- The re-numbering loop `for i, r in enumerate(results, start=1)`
(lines 125–126), starting from `i`. -/
def renumber : Nat → List ScanResult → List ScanResult
  | _, [] => []
  | i, r :: rs => { r with index := i } :: renumber (i + 1) rs

/-- `scan_pdfs(root, depth)` (lines 95–128).  The supplied root is the
pair (`rootGiven` as written by the caller, `rootResolved` its
symlink-resolved form used by the walk); its listing is
(`rootErr`, `rootChildren`).  An exception escaping the walk escapes
`scan_pdfs` (the partial record list is discarded). -/
def scan_pdfs (rootErr : Option OSErr) (rootChildren : List Entry)
    (rootGiven rootResolved : List String) (depth : Int) :
    Except OSErr (List ScanResult) :=
  match iter_pdf_files rootErr rootChildren depth with
  | .error e => .error e
  | .ok ys =>
      let results := buildResults rootGiven rootResolved ys 0
      .ok (renumber 1 (results.insertionSort resultOrder))

/-- One spreadsheet cell value. -/
inductive Cell where
  | str (s : String)
  | nat (n : Nat)
  | int (z : Int)
  | rat (q : ℚ)
deriving DecidableEq, Repr

/-- One data row of the detail sheet (lines 158–169). -/
def detailRow (r : ScanResult) : List Cell :=
  [.nat r.index, .str r.rel_dir, .str r.filename, .nat r.size_bytes,
   .rat r.size_mb, .str r.mtime, .str r.full_path]

/-- The detail sheet `PDF大小明细` (lines 139–169): the header row
(lines 143–152) followed by one row per record in list order. -/
def export_detail_rows (results : List ScanResult) : List (List Cell) :=
  [.str "序号", .str "相对目录", .str "文件名", .str "大小(Bytes)",
   .str "大小(MB)", .str "修改时间", .str "完整路径"]
    :: results.map detailRow

/-- The excerpt loop `for i, r in enumerate(topn, start=1)`
(lines 208–209), starting from `i`. -/
def topRowsFrom : Nat → List ScanResult → List (List Cell)
  | _, [] => []
  | i, r :: rs =>
      [.nat i, .str r.filename, .rat r.size_mb, .str r.rel_dir]
        :: topRowsFrom (i + 1) rs

/-- The summary sheet `汇总` (lines 194–209): five key/value rows, a blank
row, the excerpt title and header, then the top-20 excerpt rows. -/
def export_summary_rows (root : String) (depth : Int)
    (results : List ScanResult) : List (List Cell) :=
  [[.str "扫描根目录", .str root],
   [.str "扫描目录级数(depth)", .int depth],
   [.str "PDF数量", .nat results.length],
   [.str "总大小(Bytes)", .nat (results.map (fun r => r.size_bytes)).sum],
   [.str "总大小(MB)",
     .rat (round3 (((((results.map (fun r => r.size_bytes)).sum : Nat)) : ℚ) / (1024 * 1024)))],
   [],
   [.str "Top 20 最大PDF"],
   [.str "序号", .str "文件名", .str "大小(MB)", .str "相对目录"]]
    ++ topRowsFrom 1 (results.take 20)

/-- `export_to_excel(out_path, root, depth, results)` (lines 131–220),
modelled as the cell contents of the two sheets it writes. -/
def export_to_excel (root : String) (depth : Int)
    (results : List ScanResult) : List (List Cell) × List (List Cell) :=
  (export_detail_rows results, export_summary_rows root depth results)

/-- The numeric value of a cell (0 for non-numeric cells). -/
def cellNat : Cell → Nat
  | .nat n => n
  | _ => 0

/-- The `大小(Bytes)` column (index 3) of a detail-sheet data row. -/
def rowBytes (row : List Cell) : Nat := cellNat (row.getD 3 (.str ""))

/-- A matching `.pdf` file located at nesting level `k` in a tree
(children of the scan root = level 0): reachable through a chain of
plain (non-symlink) directories whose listing succeeds — the only kind
of location a directory walk can reach at all — ending in a plain
(non-symlink) regular-file entry whose lowercased name ends in `.pdf`.
`p` is the component path of the chain and always has length `k`. -/
inductive PdfFileAt : List Entry → Nat → List String → String → Option StatInfo → Prop where
  | here {children : List Entry} {name : String} {stat : Option StatInfo} :
      Entry.file name stat false ∈ children → isPdfName name = true →
      PdfFileAt children 0 [] name stat
  | deeper {children cs : List Entry} {dn : String} {k : Nat} {p : List String}
      {name : String} {stat : Option StatInfo} :
      Entry.dir dn false none cs ∈ children →
      PdfFileAt cs k p name stat →
      PdfFileAt children (k + 1) (dn :: p) name stat

/-- The `∃ it ∈ stack` invariant of the walk: yielded files are exactly
those reachable from some stack item through an accessible chain that
stays within the depth bound. -/
def ItemChain (depth : Nat) (it : StackItem) (y : YieldedFile) : Prop :=
  it.listErr = none ∧ ∃ k p, PdfFileAt it.children k p y.name y.stat ∧
    y.relPath = it.path ++ p ∧ it.d + k ≤ depth

/-- No directory anywhere in the entries carries a listing error other
than `PermissionError` (the only kind `iter_pdf_files` catches). -/
def listNoFatal : List Entry → Bool
  | [] => true
  | .dir _ _ lerr cs :: es =>
      !(lerr == some .notFound) && !(lerr == some .notADir)
        && listNoFatal cs && listNoFatal es
  | _ :: es => listNoFatal es

/-- Erase the contents of every directory whose listing fails: the walk
never sees inside such a directory, so this transformation should not
change its output ("only that subtree is skipped"). -/
def errPruneList : List Entry → List Entry
  | [] => []
  | .dir n l none cs :: es => .dir n l none (errPruneList cs) :: errPruneList es
  | .dir n l (some e) _ :: es => .dir n l (some e) [] :: errPruneList es
  | e :: es => e :: errPruneList es

/-- Remove every symlink entry (file or directory, together with the
whole subtree behind a symlinked directory): the walk never follows
symlinks, so this transformation should not change its output. -/
def dropLinksList : List Entry → List Entry
  | [] => []
  | .file _ _ true :: es => dropLinksList es
  | .dir _ true _ _ :: es => dropLinksList es
  | .file n s false :: es => .file n s false :: dropLinksList es
  | .dir n false lerr cs :: es => .dir n false lerr (dropLinksList cs) :: dropLinksList es
  | .denied n :: es => .denied n :: dropLinksList es
  | .other n :: es => .other n :: dropLinksList es

/-- The stack-item image of `errPruneList`: an unlistable item loses its
(never inspected) children, a listable one has its children pruned. -/
def errPruneItem (it : StackItem) : StackItem :=
  { it with children := match it.listErr with
      | none => errPruneList it.children
      | some _ => [] }

/-- The stack-item image of `dropLinksList`. -/
def dropLinksItem (it : StackItem) : StackItem :=
  { it with children := dropLinksList it.children }

/-- Concrete tree: `a.pdf` (10 MiB) directly in the root and
`sub/b.pdf` (5 MiB) one level down — the worked example of the spec. -/
def fsExample : List Entry :=
  [.file "a.pdf" (some ⟨10485760, "2024-01-01 00:00:00"⟩) false,
   .dir "sub" false none [.file "b.pdf" (some ⟨5242880, "2024-01-02 00:00:00"⟩) false]]

/-- Concrete tree with a permission-denied subdirectory next to a
matching file. -/
def fsPerm : List Entry :=
  [.dir "locked" false (some .permission)
     [.file "hidden.pdf" (some ⟨7, "t"⟩) false],
   .file "a.pdf" (some ⟨3, "t"⟩) false]

/-- Concrete tree with a vanished subdirectory (listing raises
`FileNotFoundError`) next to a matching file. -/
def fsVanish : List Entry :=
  [.dir "gone" false (some .notFound) [],
   .file "a.pdf" (some ⟨3, "t"⟩) false]

theorem dirStep_fst_mem {p : List String} {d depth : Nat} {es : List Entry}
    {y : YieldedFile} :
    y ∈ (dirStep p d depth es).1 ↔
      ∃ n s, Entry.file n s false ∈ es ∧ isPdfName n = true ∧ y = ⟨p, n, s⟩ := by
  induction es with
  | nil => simp [dirStep]
  | cons e es ih =>
      cases e with
      | file n s l =>
          cases l with
          | false =>
              by_cases hpdf : isPdfName n = true
              · have hstep : (dirStep p d depth (Entry.file n s false :: es)).1 =
                    ⟨p, n, s⟩ :: (dirStep p d depth es).1 := by
                  simp [dirStep, hpdf]
                rw [hstep, List.mem_cons, ih]
                constructor
                · rintro (rfl | ⟨n', s', hm, hp, rfl⟩)
                  · exact ⟨n, s, List.mem_cons_self _ _, hpdf, rfl⟩
                  · exact ⟨n', s', List.mem_cons_of_mem _ hm, hp, rfl⟩
                · rintro ⟨n', s', hm, hp, rfl⟩
                  rcases List.mem_cons.mp hm with heq | hm
                  · injection heq with e1 e2 e3
                    subst e1; subst e2
                    exact Or.inl rfl
                  · exact Or.inr ⟨n', s', hm, hp, rfl⟩
              · have hstep : (dirStep p d depth (Entry.file n s false :: es)).1 =
                    (dirStep p d depth es).1 := by
                  simp [dirStep, hpdf]
                rw [hstep, ih]
                constructor
                · rintro ⟨n', s', hm, hp, rfl⟩
                  exact ⟨n', s', List.mem_cons_of_mem _ hm, hp, rfl⟩
                · rintro ⟨n', s', hm, hp, rfl⟩
                  rcases List.mem_cons.mp hm with heq | hm
                  · injection heq with e1 e2 e3
                    subst e1
                    exact absurd hp hpdf
                  · exact ⟨n', s', hm, hp, rfl⟩
          | true =>
              have hstep : (dirStep p d depth (Entry.file n s true :: es)).1 =
                  (dirStep p d depth es).1 := by
                simp [dirStep]
              rw [hstep, ih]
              constructor
              · rintro ⟨n', s', hm, hp, rfl⟩
                exact ⟨n', s', List.mem_cons_of_mem _ hm, hp, rfl⟩
              · rintro ⟨n', s', hm, hp, rfl⟩
                rcases List.mem_cons.mp hm with heq | hm
                · injection heq with e1 e2 e3
                  cases e3
                · exact ⟨n', s', hm, hp, rfl⟩
      | dir n l lerr cs =>
          have hstep : (dirStep p d depth (Entry.dir n l lerr cs :: es)).1 =
              (dirStep p d depth es).1 := by
            by_cases hc : (!l && decide (d < depth)) = true <;> simp [dirStep, hc]
          rw [hstep, ih]
          constructor
          · rintro ⟨n', s', hm, hp, rfl⟩
            exact ⟨n', s', List.mem_cons_of_mem _ hm, hp, rfl⟩
          · rintro ⟨n', s', hm, hp, rfl⟩
            rcases List.mem_cons.mp hm with heq | hm
            · cases heq
            · exact ⟨n', s', hm, hp, rfl⟩
      | denied n =>
          have hstep : (dirStep p d depth (Entry.denied n :: es)).1 =
              (dirStep p d depth es).1 := by simp [dirStep]
          rw [hstep, ih]
          constructor
          · rintro ⟨n', s', hm, hp, rfl⟩
            exact ⟨n', s', List.mem_cons_of_mem _ hm, hp, rfl⟩
          · rintro ⟨n', s', hm, hp, rfl⟩
            rcases List.mem_cons.mp hm with heq | hm
            · cases heq
            · exact ⟨n', s', hm, hp, rfl⟩
      | other n =>
          have hstep : (dirStep p d depth (Entry.other n :: es)).1 =
              (dirStep p d depth es).1 := by simp [dirStep]
          rw [hstep, ih]
          constructor
          · rintro ⟨n', s', hm, hp, rfl⟩
            exact ⟨n', s', List.mem_cons_of_mem _ hm, hp, rfl⟩
          · rintro ⟨n', s', hm, hp, rfl⟩
            rcases List.mem_cons.mp hm with heq | hm
            · cases heq
            · exact ⟨n', s', hm, hp, rfl⟩

theorem dirStep_snd_mem {p : List String} {d depth : Nat} {es : List Entry}
    {it : StackItem} :
    it ∈ (dirStep p d depth es).2 ↔
      ∃ dn lerr cs, Entry.dir dn false lerr cs ∈ es ∧ d < depth ∧
        it = ⟨p ++ [dn], d + 1, lerr, cs⟩ := by
  induction es with
  | nil => simp [dirStep]
  | cons e es ih =>
      cases e with
      | file n s l =>
          have hstep : (dirStep p d depth (Entry.file n s l :: es)).2 =
              (dirStep p d depth es).2 := by
            by_cases hc : (!l && isPdfName n) = true <;> simp [dirStep, hc]
          rw [hstep, ih]
          constructor
          · rintro ⟨dn, l', c', hm, hd', rfl⟩
            exact ⟨dn, l', c', List.mem_cons_of_mem _ hm, hd', rfl⟩
          · rintro ⟨dn, l', c', hm, hd', rfl⟩
            rcases List.mem_cons.mp hm with heq | hm
            · cases heq
            · exact ⟨dn, l', c', hm, hd', rfl⟩
      | dir n l lerr cs =>
          cases l with
          | false =>
              by_cases hd : d < depth
              · have hstep : (dirStep p d depth (Entry.dir n false lerr cs :: es)).2 =
                    ⟨p ++ [n], d + 1, lerr, cs⟩ :: (dirStep p d depth es).2 := by
                  simp [dirStep, hd]
                rw [hstep, List.mem_cons, ih]
                constructor
                · rintro (rfl | ⟨dn, l', c', hm, hd', rfl⟩)
                  · exact ⟨n, lerr, cs, List.mem_cons_self _ _, hd, rfl⟩
                  · exact ⟨dn, l', c', List.mem_cons_of_mem _ hm, hd', rfl⟩
                · rintro ⟨dn, l', c', hm, hd', rfl⟩
                  rcases List.mem_cons.mp hm with heq | hm
                  · injection heq with e1 e2 e3 e4
                    subst e1; subst e3; subst e4
                    exact Or.inl rfl
                  · exact Or.inr ⟨dn, l', c', hm, hd', rfl⟩
              · have hstep : (dirStep p d depth (Entry.dir n false lerr cs :: es)).2 =
                    (dirStep p d depth es).2 := by
                  simp [dirStep, hd]
                rw [hstep, ih]
                constructor
                · rintro ⟨dn, l', c', hm, hd', rfl⟩
                  exact ⟨dn, l', c', List.mem_cons_of_mem _ hm, hd', rfl⟩
                · rintro ⟨dn, l', c', hm, hd', rfl⟩
                  rcases List.mem_cons.mp hm with heq | hm
                  · exact absurd hd' hd
                  · exact ⟨dn, l', c', hm, hd', rfl⟩
          | true =>
              have hstep : (dirStep p d depth (Entry.dir n true lerr cs :: es)).2 =
                  (dirStep p d depth es).2 := by simp [dirStep]
              rw [hstep, ih]
              constructor
              · rintro ⟨dn, l', c', hm, hd', rfl⟩
                exact ⟨dn, l', c', List.mem_cons_of_mem _ hm, hd', rfl⟩
              · rintro ⟨dn, l', c', hm, hd', rfl⟩
                rcases List.mem_cons.mp hm with heq | hm
                · injection heq with e1 e2 e3 e4
                  cases e2
                · exact ⟨dn, l', c', hm, hd', rfl⟩
      | denied n =>
          have hstep : (dirStep p d depth (Entry.denied n :: es)).2 =
              (dirStep p d depth es).2 := by simp [dirStep]
          rw [hstep, ih]
          constructor
          · rintro ⟨dn, l', c', hm, hd', rfl⟩
            exact ⟨dn, l', c', List.mem_cons_of_mem _ hm, hd', rfl⟩
          · rintro ⟨dn, l', c', hm, hd', rfl⟩
            rcases List.mem_cons.mp hm with heq | hm
            · cases heq
            · exact ⟨dn, l', c', hm, hd', rfl⟩
      | other n =>
          have hstep : (dirStep p d depth (Entry.other n :: es)).2 =
              (dirStep p d depth es).2 := by simp [dirStep]
          rw [hstep, ih]
          constructor
          · rintro ⟨dn, l', c', hm, hd', rfl⟩
            exact ⟨dn, l', c', List.mem_cons_of_mem _ hm, hd', rfl⟩
          · rintro ⟨dn, l', c', hm, hd', rfl⟩
            rcases List.mem_cons.mp hm with heq | hm
            · cases heq
            · exact ⟨dn, l', c', hm, hd', rfl⟩

theorem itemChain_unfold {depth : Nat} {it : StackItem} (hnone : it.listErr = none)
    (hd : it.d ≤ depth) (y : YieldedFile) :
    ItemChain depth it y ↔
      (y ∈ (dirStep it.path it.d depth it.children).1 ∨
        ∃ i ∈ (dirStep it.path it.d depth it.children).2, ItemChain depth i y) := by
  unfold ItemChain
  rw [hnone]
  simp only [true_and]
  constructor
  · rintro ⟨k, p, hat, hrel, hdep⟩
    cases hat with
    | here hm hp =>
        left
        rw [dirStep_fst_mem]
        refine ⟨y.name, y.stat, hm, hp, ?_⟩
        have hr : y.relPath = it.path := by simpa using hrel
        calc y = ⟨y.relPath, y.name, y.stat⟩ := rfl
          _ = ⟨it.path, y.name, y.stat⟩ := by rw [hr]
    | @deeper _ cs dn k' p' _ _ hm hat' =>
        right
        have hdlt : it.d < depth := by omega
        refine ⟨⟨it.path ++ [dn], it.d + 1, none, cs⟩, ?_, ?_⟩
        · rw [dirStep_snd_mem]
          exact ⟨dn, none, cs, hm, hdlt, rfl⟩
        · refine ⟨rfl, k', p', hat', ?_, ?_⟩
          · simpa [List.append_assoc] using hrel
          · show it.d + 1 + k' ≤ depth
            omega
  · rintro (hy | ⟨i, hi, hchain⟩)
    · rw [dirStep_fst_mem] at hy
      obtain ⟨n, s, hm, hp, rfl⟩ := hy
      exact ⟨0, [], PdfFileAt.here hm hp, by simp, by omega⟩
    · rw [dirStep_snd_mem] at hi
      obtain ⟨dn, lerr, cs, hm, hdlt, rfl⟩ := hi
      obtain ⟨hnone2, k', p', hat', hrel, hdep⟩ := hchain
      rcases hnone2
      have hrel2 : y.relPath = it.path ++ dn :: p' := by
        simpa [List.append_assoc] using hrel
      have hdep2 : it.d + 1 + k' ≤ depth := hdep
      exact ⟨k' + 1, dn :: p', PdfFileAt.deeper hm hat', hrel2, by omega⟩

theorem walkAux_mem {depth : Nat} (stack : List StackItem) :
    ∀ ys, (∀ it ∈ stack, it.d ≤ depth) → walkAux depth stack = .ok ys →
      ∀ y, (y ∈ ys ↔ ∃ it ∈ stack, ItemChain depth it y) := by
  refine walkAux.induct depth
    (fun stack => ∀ ys, (∀ it ∈ stack, it.d ≤ depth) → walkAux depth stack = .ok ys →
      ∀ y, (y ∈ ys ↔ ∃ it ∈ stack, ItemChain depth it y))
    ?_ ?_ ?_ ?_ ?_ ?_ stack
  · intro ys _ h y
    simp [walkAux] at h
    subst h
    simp
  · intro it rest hperm ih ys hwf h y
    have h' : walkAux depth rest = .ok ys := by
      rw [walkAux, hperm] at h
      exact h
    rw [ih ys (fun i hi => hwf i (List.mem_cons_of_mem _ hi)) h' y]
    constructor
    · rintro ⟨i, hi, hc⟩
      exact ⟨i, List.mem_cons_of_mem _ hi, hc⟩
    · rintro ⟨i, hi, hc⟩
      rcases List.mem_cons.mp hi with rfl | hi
      · exact absurd hc.1 (by simp [hperm])
      · exact ⟨i, hi, hc⟩
  · intro it rest herr ys _ h
    rw [walkAux, herr] at h
    cases h
  · intro it rest herr ys _ h
    rw [walkAux, herr] at h
    cases h
  · intro it rest hnone step more hok ih ys hwf h y
    have hdle : it.d ≤ depth := hwf it (List.mem_cons_self _ _)
    simp only [walkAux, hnone, hok] at h
    injection h with h
    have hwf' : ∀ i ∈ step.2.reverse ++ rest, i.d ≤ depth := by
      intro i hi
      rcases List.mem_append.mp hi with hi | hi
      · rw [List.mem_reverse] at hi
        rw [dirStep_snd_mem] at hi
        obtain ⟨dn, lerr, cs, _, hdlt, rfl⟩ := hi
        show it.d + 1 ≤ depth
        omega
      · exact hwf i (List.mem_cons_of_mem _ hi)
    have hiff := ih more hwf' hok y
    rw [← h, List.mem_append, hiff]
    constructor
    · rintro (hy | ⟨i, hi, hc⟩)
      · exact ⟨it, List.mem_cons_self _ _,
          (itemChain_unfold hnone hdle y).mpr (Or.inl hy)⟩
      · rcases List.mem_append.mp hi with hi | hi
        · rw [List.mem_reverse] at hi
          exact ⟨it, List.mem_cons_self _ _,
            (itemChain_unfold hnone hdle y).mpr (Or.inr ⟨i, hi, hc⟩)⟩
        · exact ⟨i, List.mem_cons_of_mem _ hi, hc⟩
    · rintro ⟨i, hi, hc⟩
      rcases List.mem_cons.mp hi with rfl | hi
      · rcases (itemChain_unfold hnone hdle y).mp hc with hy | ⟨j, hj, hcj⟩
        · exact Or.inl hy
        · exact Or.inr ⟨j, List.mem_append_left _ (List.mem_reverse.mpr hj), hcj⟩
      · exact Or.inr ⟨i, List.mem_append_right _ hi, hc⟩
  · intro it rest hnone step e herr ih ys _ h
    simp only [walkAux, hnone, herr] at h
    exact Except.noConfusion h

theorem pdfFileAt_length {es : List Entry} {k : Nat} {p : List String}
    {n : String} {s : Option StatInfo} (h : PdfFileAt es k p n s) : k = p.length := by
  induction h with
  | here _ _ => rfl
  | deeper _ _ ih => simpa using ih

/-- C1: Depth-bounded traversal — for every depth `d ≥ 0`, every tree
below a listable scan root, and every matching `.pdf` file located at
nesting level `k` (root = level 0, `PdfFileAt` pins "located" to an
accessible chain of plain listable directories), the file is yielded by
the walk if and only if `k ≤ d`. -/
theorem c1_depth_bounded {rc : List Entry} {depth : Int} (hd : 0 ≤ depth)
    {k : Nat} {p : List String} {name : String} {stat : Option StatInfo}
    {ys : List YieldedFile}
    (hok : iter_pdf_files none rc depth = .ok ys)
    (hat : PdfFileAt rc k p name stat) :
    ((⟨p, name, stat⟩ : YieldedFile) ∈ ys) ↔ (k : Int) ≤ depth := by
  simp only [iter_pdf_files] at hok
  have hnneg : ¬ depth < 0 := by omega
  rw [if_neg hnneg] at hok
  have hwf : ∀ it ∈ [(⟨[], 0, none, rc⟩ : StackItem)], it.d ≤ depth.toNat := by
    intro it hit
    rcases List.mem_cons.mp hit with rfl | h
    · show 0 ≤ depth.toNat
      omega
    · simp at h
  have hm := walkAux_mem _ ys hwf hok ⟨p, name, stat⟩
  rw [hm]
  constructor
  · rintro ⟨i, hi, hc⟩
    rcases List.mem_cons.mp hi with rfl | h
    · obtain ⟨-, k', p', hat', hrel, hdep⟩ := hc
      have e1 : p = p' := by simpa using hrel
      subst e1
      have e2 : k = k' := by rw [pdfFileAt_length hat, pdfFileAt_length hat']
      have hdep2 : 0 + k' ≤ depth.toNat := hdep
      omega
    · simp at h
  · intro hk
    refine ⟨⟨[], 0, none, rc⟩, List.mem_cons_self _ _, rfl, k, p, hat, by simp, ?_⟩
    show 0 + k ≤ depth.toNat
    omega

theorem c1_witness :
    (⟨["sub"], "b.pdf", some ⟨5242880, "2024-01-02 00:00:00"⟩⟩ : YieldedFile) ∈
      [(⟨[], "a.pdf", some ⟨10485760, "2024-01-01 00:00:00"⟩⟩ : YieldedFile),
       ⟨["sub"], "b.pdf", some ⟨5242880, "2024-01-02 00:00:00"⟩⟩] := by
  have h0 : PdfFileAt
      [Entry.file "b.pdf" (some ⟨5242880, "2024-01-02 00:00:00"⟩) false]
      0 [] "b.pdf" (some ⟨5242880, "2024-01-02 00:00:00"⟩) :=
    PdfFileAt.here (List.mem_cons_self _ _) (by decide)
  have hat : PdfFileAt fsExample 1 ["sub"] "b.pdf"
      (some ⟨5242880, "2024-01-02 00:00:00"⟩) :=
    PdfFileAt.deeper (by simp [fsExample]) h0
  have hok : iter_pdf_files none fsExample 1 =
      .ok [⟨[], "a.pdf", some ⟨10485760, "2024-01-01 00:00:00"⟩⟩,
           ⟨["sub"], "b.pdf", some ⟨5242880, "2024-01-02 00:00:00"⟩⟩] := by
    simp +decide [iter_pdf_files, walkAux, dirStep, fsExample]
  exact (c1_depth_bounded (by decide) hok hat).mpr (by decide)

/-- C8: Negative depth clamps to 0 — for every root and every depth `d < 0`,
`scan_pdfs` returns exactly the same record sequence as the depth-0 run on
the same tree (lines 65-66 clamp the depth before the walk starts). -/
theorem c8_negative_depth (rootErr : Option OSErr) (rc : List Entry)
    (rg rr : List String) (depth : Int) (hneg : depth < 0) :
    scan_pdfs rootErr rc rg rr depth = scan_pdfs rootErr rc rg rr 0 := by
  simp [scan_pdfs, iter_pdf_files, hneg]

theorem c8_witness :
    scan_pdfs none fsExample ["r"] ["r"] (-3) = scan_pdfs none fsExample ["r"] ["r"] 0 :=
  c8_negative_depth none fsExample ["r"] ["r"] (-3) (by decide)

/-- C5: Invalid root — if listing the supplied root fails because the root
does not exist (`FileNotFoundError`) or is not a directory
(`NotADirectoryError`), the scan surfaces that error to the caller with no
records, and the result is independent of any tree contents (no directory
entry is ever touched). -/
theorem c5_invalid_root {e : OSErr} (he : e = .notFound ∨ e = .notADir)
    (rc : List Entry) (rg rr : List String) (depth : Int) :
    scan_pdfs (some e) rc rg rr depth = .error e ∧
    ∀ rc', scan_pdfs (some e) rc rg rr depth = scan_pdfs (some e) rc' rg rr depth := by
  have hbase : ∀ rc'' : List Entry, scan_pdfs (some e) rc'' rg rr depth = .error e := by
    intro rc''
    rcases he with rfl | rfl <;> simp [scan_pdfs, iter_pdf_files, walkAux]
  exact ⟨hbase rc, fun rc' => (hbase rc).trans (hbase rc').symm⟩

theorem c5_witness :
    scan_pdfs (some .notFound) fsExample ["r"] ["r"] 2 = .error .notFound :=
  (c5_invalid_root (Or.inl rfl) fsExample ["r"] ["r"] 2).1

theorem walkAux_cons_none {depth : Nat} {it : StackItem} (hnone : it.listErr = none)
    (rest : List StackItem) :
    walkAux depth (it :: rest) =
      match walkAux depth ((dirStep it.path it.d depth it.children).2.reverse ++ rest) with
      | .ok more => .ok ((dirStep it.path it.d depth it.children).1 ++ more)
      | .error e => .error e := by
  conv_lhs => rw [walkAux, hnone]

theorem walkAux_cons_perm {depth : Nat} {it : StackItem}
    (h : it.listErr = some .permission) (rest : List StackItem) :
    walkAux depth (it :: rest) = walkAux depth rest := by
  conv_lhs => rw [walkAux, h]

theorem walkAux_cons_notFound {depth : Nat} {it : StackItem}
    (h : it.listErr = some .notFound) (rest : List StackItem) :
    walkAux depth (it :: rest) = .error .notFound := by
  conv_lhs => rw [walkAux, h]

theorem walkAux_cons_notADir {depth : Nat} {it : StackItem}
    (h : it.listErr = some .notADir) (rest : List StackItem) :
    walkAux depth (it :: rest) = .error .notADir := by
  conv_lhs => rw [walkAux, h]

theorem walkAux_map {depth : Nat} (T : List Entry → List Entry)
    (itemT : StackItem → StackItem)
    (hkeep : ∀ it, (itemT it).path = it.path ∧ (itemT it).d = it.d ∧
      (itemT it).listErr = it.listErr)
    (hch : ∀ it, it.listErr = none → (itemT it).children = T it.children)
    (hdir : ∀ p d es, dirStep p d depth (T es) =
      ((dirStep p d depth es).1, (dirStep p d depth es).2.map itemT))
    (stack : List StackItem) :
    walkAux depth (stack.map itemT) = walkAux depth stack := by
  refine walkAux.induct depth
    (fun stack => walkAux depth (stack.map itemT) = walkAux depth stack)
    ?_ ?_ ?_ ?_ ?_ ?_ stack
  · simp
  · intro it rest hperm ih
    rw [List.map_cons,
      walkAux_cons_perm ((hkeep it).2.2.trans hperm),
      walkAux_cons_perm hperm, ih]
  · intro it rest herr
    rw [List.map_cons,
      walkAux_cons_notFound ((hkeep it).2.2.trans herr),
      walkAux_cons_notFound herr]
  · intro it rest herr
    rw [List.map_cons,
      walkAux_cons_notADir ((hkeep it).2.2.trans herr),
      walkAux_cons_notADir herr]
  · intro it rest hnone step more hok ih
    have hit : itemT it = ⟨it.path, it.d, none, T it.children⟩ := by
      obtain ⟨e1, e2, e3⟩ := hkeep it
      have e4 := hch it hnone
      cases hI : itemT it
      rw [hI] at e1 e2 e3 e4
      dsimp only at e1 e2 e3 e4
      rw [e1, e2, e3.trans hnone, e4]
    rw [List.map_cons, hit, walkAux_cons_none rfl, walkAux_cons_none hnone]
    dsimp only
    rw [hdir it.path it.d it.children]
    dsimp only
    rw [← List.map_reverse, ← List.map_append, ih]
  · intro it rest hnone step e herr ih
    have hit : itemT it = ⟨it.path, it.d, none, T it.children⟩ := by
      obtain ⟨e1, e2, e3⟩ := hkeep it
      have e4 := hch it hnone
      cases hI : itemT it
      rw [hI] at e1 e2 e3 e4
      dsimp only at e1 e2 e3 e4
      rw [e1, e2, e3.trans hnone, e4]
    rw [List.map_cons, hit, walkAux_cons_none rfl, walkAux_cons_none hnone]
    dsimp only
    rw [hdir it.path it.d it.children]
    dsimp only
    rw [← List.map_reverse, ← List.map_append, ih]

theorem dirStep_errPrune (p : List String) (d depth : Nat) (es : List Entry) :
    dirStep p d depth (errPruneList es) =
      ((dirStep p d depth es).1, (dirStep p d depth es).2.map errPruneItem) := by
  induction es with
  | nil => simp [dirStep, errPruneList]
  | cons e es ih =>
      cases e with
      | file n s l =>
          by_cases hc : (!l && isPdfName n) = true <;>
            simp [errPruneList, dirStep, hc, ih]
      | dir n l lerr cs =>
          cases lerr with
          | none =>
              by_cases hc : (!l && decide (d < depth)) = true <;>
                simp [errPruneList, dirStep, hc, ih, errPruneItem]
          | some e2 =>
              by_cases hc : (!l && decide (d < depth)) = true <;>
                simp [errPruneList, dirStep, hc, ih, errPruneItem]
      | denied n => simp [errPruneList, dirStep, ih]
      | other n => simp [errPruneList, dirStep, ih]

theorem dirStep_dropLinks (p : List String) (d depth : Nat) (es : List Entry) :
    dirStep p d depth (dropLinksList es) =
      ((dirStep p d depth es).1, (dirStep p d depth es).2.map dropLinksItem) := by
  induction es with
  | nil => simp [dirStep, dropLinksList]
  | cons e es ih =>
      cases e with
      | file n s l =>
          cases l with
          | false =>
              by_cases hc : isPdfName n = true <;>
                simp [dropLinksList, dirStep, hc, ih]
          | true => simp [dropLinksList, dirStep, ih]
      | dir n l lerr cs =>
          cases l with
          | false =>
              by_cases hc : d < depth <;>
                simp [dropLinksList, dirStep, hc, ih, dropLinksItem]
          | true => simp [dropLinksList, dirStep, ih]
      | denied n => simp [dropLinksList, dirStep, ih]
      | other n => simp [dropLinksList, dirStep, ih]

theorem listNoFatal_dir_mem {es : List Entry} {dn : String} {l : Bool}
    {lerr : Option OSErr} {cs : List Entry} (h : listNoFatal es = true)
    (hm : Entry.dir dn l lerr cs ∈ es) :
    (lerr = none ∨ lerr = some .permission) ∧ listNoFatal cs = true := by
  induction es with
  | nil => cases hm
  | cons e es ih =>
      rcases List.mem_cons.mp hm with heq | htl
      · subst heq
        simp only [listNoFatal, Bool.and_eq_true] at h
        obtain ⟨⟨⟨h1, h2⟩, h3⟩, -⟩ := h
        refine ⟨?_, h3⟩
        cases lerr with
        | none => exact Or.inl rfl
        | some o =>
            cases o with
            | permission => exact Or.inr rfl
            | notFound => simp at h1
            | notADir => simp at h2
      · cases e with
        | dir n2 l2 lerr2 cs2 =>
            simp only [listNoFatal, Bool.and_eq_true] at h
            exact ih h.2 htl
        | file n2 s2 l2 =>
            simp only [listNoFatal] at h
            exact ih h htl
        | denied n2 =>
            simp only [listNoFatal] at h
            exact ih h htl
        | other n2 =>
            simp only [listNoFatal] at h
            exact ih h htl

theorem walkAux_noFatal {depth : Nat} (stack : List StackItem) :
    (∀ it ∈ stack, (it.listErr = none ∨ it.listErr = some .permission) ∧
      listNoFatal it.children = true) →
    ∃ ys, walkAux depth stack = .ok ys := by
  refine walkAux.induct depth
    (fun stack => (∀ it ∈ stack, (it.listErr = none ∨ it.listErr = some .permission) ∧
      listNoFatal it.children = true) → ∃ ys, walkAux depth stack = .ok ys)
    ?_ ?_ ?_ ?_ ?_ ?_ stack
  · intro _
    refine ⟨[], ?_⟩
    simp [walkAux]
  · intro it rest hperm ih h
    rw [walkAux_cons_perm hperm]
    exact ih (fun i hi => h i (List.mem_cons_of_mem _ hi))
  · intro it rest herr h
    rcases (h it (List.mem_cons_self _ _)).1 with h1 | h1 <;> rw [herr] at h1 <;> cases h1
  · intro it rest herr h
    rcases (h it (List.mem_cons_self _ _)).1 with h1 | h1 <;> rw [herr] at h1 <;> cases h1
  · intro it rest hnone step more hok ih h
    refine ⟨step.1 ++ more, ?_⟩
    rw [walkAux_cons_none hnone, hok]
  · intro it rest hnone step e herr ih h
    have h' : ∀ i ∈ step.2.reverse ++ rest,
        (i.listErr = none ∨ i.listErr = some .permission) ∧
          listNoFatal i.children = true := by
      intro i hi
      rcases List.mem_append.mp hi with hi | hi
      · rw [List.mem_reverse] at hi
        rw [dirStep_snd_mem] at hi
        obtain ⟨dn, lerr, cs, hm, -, rfl⟩ := hi
        exact listNoFatal_dir_mem (h it (List.mem_cons_self _ _)).2 hm
      · exact h i (List.mem_cons_of_mem _ hi)
    obtain ⟨ys, hys⟩ := ih h'
    rw [hys] at herr
    cases herr

/-- C4 counterexample: the claim says a *vanished* directory entry
(listing raises `FileNotFoundError`) is caught and only that subtree is
skipped; in the code only `PermissionError` is caught (line 91), so a
vanished directory aborts the whole scan — even the sibling `a.pdf` of
`fsVanish` is lost and `scan_pdfs` propagates the error. -/
theorem c4_counterexample :
    scan_pdfs none fsVanish ["r"] ["r"] 1 = .error .notFound := by
  simp +decide [scan_pdfs, iter_pdf_files, walkAux, dirStep, fsVanish]

/-- C4 amended: per-directory `PermissionError` listing failures are
caught and only the failed subtree is skipped — emptying the (never
listed) contents of every directory whose listing fails does not change
the walk's output, and on a tree whose only listing failures are
permission errors the walk always completes with `.ok` (never aborts). A
vanished-entry failure, by contrast, aborts the scan (see the
counterexample). -/
theorem c4_permission_tolerance (rc : List Entry) (depth : Int) :
    iter_pdf_files none (errPruneList rc) depth = iter_pdf_files none rc depth ∧
    (listNoFatal rc = true → ∃ ys, iter_pdf_files none rc depth = .ok ys) := by
  constructor
  · simp only [iter_pdf_files]
    have h0 : [(⟨[], 0, none, errPruneList rc⟩ : StackItem)] =
        List.map errPruneItem [⟨[], 0, none, rc⟩] := rfl
    rw [h0]
    exact walkAux_map errPruneList errPruneItem (fun it => ⟨rfl, rfl, rfl⟩)
      (fun it hnone => by simp [errPruneItem, hnone])
      (fun p d es => dirStep_errPrune p d _ es) _
  · intro hnf
    simp only [iter_pdf_files]
    refine walkAux_noFatal _ (fun it hit => ?_)
    rcases List.mem_cons.mp hit with rfl | h
    · exact ⟨Or.inl rfl, hnf⟩
    · simp at h

theorem c4_witness : ∃ ys, iter_pdf_files none fsPerm 1 = .ok ys :=
  (c4_permission_tolerance fsPerm 1).2 (by simp [listNoFatal, fsPerm])

/-- C9: Symlink freedom — removing every symlink entry (symlinked files,
and symlinked directories together with the whole subtree behind them)
leaves the walk's output unchanged, so the walker never descends into a
directory symlink and never classifies a symlinked file as a match; in
addition every yielded file is reachable through a chain of plain
non-symlink directories ending in a plain non-symlink file
(`PdfFileAt`). Termination on every finite tree is intrinsic: `walkAux`
is a total function (its recursion is justified by the decreasing
`stackWeight` measure), and symlink cycles cannot contribute because
symlinked directories are never pushed on the stack. -/
theorem c9_symlink_freedom (rc : List Entry) (depth : Int) :
    iter_pdf_files none (dropLinksList rc) depth = iter_pdf_files none rc depth ∧
    (∀ ys, iter_pdf_files none rc depth = .ok ys →
      ∀ y ∈ ys, ∃ k, PdfFileAt rc k y.relPath y.name y.stat) := by
  constructor
  · simp only [iter_pdf_files]
    have h0 : [(⟨[], 0, none, dropLinksList rc⟩ : StackItem)] =
        List.map dropLinksItem [⟨[], 0, none, rc⟩] := rfl
    rw [h0]
    exact walkAux_map dropLinksList dropLinksItem (fun it => ⟨rfl, rfl, rfl⟩)
      (fun it _ => rfl) (fun p d es => dirStep_dropLinks p d _ es) _
  · intro ys hok y hy
    simp only [iter_pdf_files] at hok
    have hwf : ∀ it ∈ [(⟨[], 0, none, rc⟩ : StackItem)],
        it.d ≤ (if depth < 0 then 0 else depth.toNat) := by
      intro it hit
      rcases List.mem_cons.mp hit with rfl | h
      · show 0 ≤ _
        omega
      · simp at h
    have hm := walkAux_mem _ ys hwf hok y
    rcases hm.mp hy with ⟨i, hi, hc⟩
    rcases List.mem_cons.mp hi with rfl | h
    · obtain ⟨-, k, p, hat, hrel, -⟩ := hc
      have hrp : y.relPath = p := by simpa using hrel
      rw [hrp]
      exact ⟨k, hat⟩
    · simp at h

theorem c9_witness :
    ∃ k, PdfFileAt fsExample k ["sub"] "b.pdf" (some ⟨5242880, "2024-01-02 00:00:00"⟩) := by
  have hok : iter_pdf_files none fsExample 1 =
      .ok [⟨[], "a.pdf", some ⟨10485760, "2024-01-01 00:00:00"⟩⟩,
           ⟨["sub"], "b.pdf", some ⟨5242880, "2024-01-02 00:00:00"⟩⟩] := by
    simp +decide [iter_pdf_files, walkAux, dirStep, fsExample]
  exact (c9_symlink_freedom fsExample 1).2 _ hok
    ⟨["sub"], "b.pdf", some ⟨5242880, "2024-01-02 00:00:00"⟩⟩ (by decide)

theorem renumber_length (i : Nat) (l : List ScanResult) :
    (renumber i l).length = l.length := by
  induction l generalizing i with
  | nil => rfl
  | cons r rs ih => simp [renumber, ih]

theorem renumber_map_index (i : Nat) (l : List ScanResult) :
    (renumber i l).map (fun r => r.index) = List.range' i l.length := by
  induction l generalizing i with
  | nil => rfl
  | cons r rs ih => simp [renumber, List.range'_succ, ih]

theorem mem_renumber {b : ScanResult} {i : Nat} {l : List ScanResult}
    (h : b ∈ renumber i l) : ∃ a ∈ l, ∃ j, b = { a with index := j } := by
  induction l generalizing i with
  | nil => cases h
  | cons r rs ih =>
      rcases List.mem_cons.mp h with rfl | htl
      · exact ⟨r, List.mem_cons_self _ _, i, rfl⟩
      · obtain ⟨a, ha, j, hb⟩ := ih htl
        exact ⟨a, List.mem_cons_of_mem _ ha, j, hb⟩

theorem pairwise_renumber {R : ScanResult → ScanResult → Prop}
    (hR : ∀ a b i j, R a b → R { a with index := i } { b with index := j }) :
    ∀ (l : List ScanResult), l.Pairwise R → ∀ i, (renumber i l).Pairwise R := by
  intro l
  induction l with
  | nil => intro _ i; exact List.Pairwise.nil
  | cons r rs ih =>
      intro h i
      rw [List.pairwise_cons] at h
      show List.Pairwise R ({ r with index := i } :: renumber (i + 1) rs)
      rw [List.pairwise_cons]
      constructor
      · intro b hb
        obtain ⟨a, ha, j, rfl⟩ := mem_renumber hb
        exact hR r a i j (h.1 a ha)
      · exact ih h.2 (i + 1)

theorem scan_pdfs_ok {rootErr : Option OSErr} {rc : List Entry}
    {rg rr : List String} {depth : Int} {l : List ScanResult}
    (h : scan_pdfs rootErr rc rg rr depth = .ok l) :
    ∃ ys, iter_pdf_files rootErr rc depth = .ok ys ∧
      l = renumber 1 ((buildResults rg rr ys 0).insertionSort resultOrder) := by
  unfold scan_pdfs at h
  cases hit : iter_pdf_files rootErr rc depth with
  | error e => rw [hit] at h; cases h
  | ok ys =>
      rw [hit] at h
      injection h with h
      exact ⟨ys, rfl, h.symm⟩

/-- C2: Post-state of scan — for every successful scan the returned
record list has `index` (rank) values exactly `1..N` in order (no gaps or
duplicates), and the list is pairwise ordered with `size_bytes`
non-increasing and, among records of equal `size_bytes`, case-insensitive
filename (lowercased code-point order) non-decreasing; remaining ties
keep the stable sort's order. -/
theorem c2_order_and_ranks {rootErr : Option OSErr} {rc : List Entry}
    {rg rr : List String} {depth : Int} {l : List ScanResult}
    (h : scan_pdfs rootErr rc rg rr depth = .ok l) :
    l.map (fun r => r.index) = List.range' 1 l.length ∧
    l.Pairwise (fun a b => b.size_bytes ≤ a.size_bytes ∧
      (a.size_bytes = b.size_bytes →
        lexLE (pyLower a.filename).data (pyLower b.filename).data = true)) := by
  obtain ⟨ys, -, rfl⟩ := scan_pdfs_ok h
  constructor
  · rw [renumber_map_index, renumber_length]
  · have hsorted : ((buildResults rg rr ys 0).insertionSort resultOrder).Pairwise
        resultOrder := List.sorted_insertionSort resultOrder _
    have h2 : ((buildResults rg rr ys 0).insertionSort resultOrder).Pairwise
        (fun a b => b.size_bytes ≤ a.size_bytes ∧
          (a.size_bytes = b.size_bytes →
            lexLE (pyLower a.filename).data (pyLower b.filename).data = true)) := by
      refine hsorted.imp ?_
      intro a b hab
      rcases hab with hlt | ⟨heq, hle⟩
      · exact ⟨Nat.le_of_lt hlt, fun he => absurd he.symm (ne_of_lt hlt)⟩
      · exact ⟨le_of_eq heq.symm, fun _ => hle⟩
    exact pairwise_renumber (fun a b i j hab => hab) _ h2 1

theorem c2_witness :
    ([(⟨1, "", "a.pdf", 10485760, 10, "/r/a.pdf", "2024-01-01 00:00:00"⟩ : ScanResult),
      ⟨2, "sub", "b.pdf", 5242880, 5, "/r/sub/b.pdf", "2024-01-02 00:00:00"⟩].map
        (fun r => r.index) =
      List.range' 1 [(⟨1, "", "a.pdf", 10485760, 10, "/r/a.pdf", "2024-01-01 00:00:00"⟩ : ScanResult),
        ⟨2, "sub", "b.pdf", 5242880, 5, "/r/sub/b.pdf", "2024-01-02 00:00:00"⟩].length) ∧
    [(⟨1, "", "a.pdf", 10485760, 10, "/r/a.pdf", "2024-01-01 00:00:00"⟩ : ScanResult),
      ⟨2, "sub", "b.pdf", 5242880, 5, "/r/sub/b.pdf", "2024-01-02 00:00:00"⟩].Pairwise
      (fun a b => b.size_bytes ≤ a.size_bytes ∧
        (a.size_bytes = b.size_bytes →
          lexLE (pyLower a.filename).data (pyLower b.filename).data = true)) :=
  @c2_order_and_ranks none fsExample ["r"] ["r"] 1
    [⟨1, "", "a.pdf", 10485760, 10, "/r/a.pdf", "2024-01-01 00:00:00"⟩,
     ⟨2, "sub", "b.pdf", 5242880, 5, "/r/sub/b.pdf", "2024-01-02 00:00:00"⟩]
    (by
      simp +decide [scan_pdfs, iter_pdf_files, walkAux, dirStep, fsExample,
        buildResults, _safe_relpath, renderRel, renderAbs, renumber,
        List.insertionSort, List.orderedInsert, _human_mb, round3]
      norm_num [round_eq])

theorem renderAbs_ne_dot (ps : List String) : renderAbs ps ≠ "." := by
  intro h
  have hd : ("/" ++ String.intercalate "/" ps).data = ".".data := congrArg String.data h
  have hd2 : '/' :: (String.intercalate "/" ps).data = ['.'] := hd
  cases hd2

theorem mem_buildResults {rg rr : List String} {ys : List YieldedFile}
    {r : ScanResult} : ∀ {i : Nat}, r ∈ buildResults rg rr ys i →
    ∃ y ∈ ys, ∃ st, y.stat = some st ∧
      r.filename = y.name ∧
      r.full_path = renderAbs ((rr ++ y.relPath) ++ [y.name]) ∧
      r.rel_dir = (if _safe_relpath (rr ++ y.relPath) rg = "." then ""
                   else _safe_relpath (rr ++ y.relPath) rg) ∧
      r.size_bytes = st.size ∧ r.size_mb = _human_mb st.size ∧ r.mtime = st.mtime := by
  induction ys with
  | nil => intro i h; cases h
  | cons y ys ih =>
      intro i h
      rcases hst : y.stat with - | st
      · rw [buildResults, hst] at h
        obtain ⟨y', hy', rest⟩ := ih h
        exact ⟨y', List.mem_cons_of_mem _ hy', rest⟩
      · rw [buildResults, hst] at h
        rcases List.mem_cons.mp h with rfl | htl
        · exact ⟨y, List.mem_cons_self _ _, st, hst, rfl, rfl, rfl, rfl, rfl, rfl⟩
        · obtain ⟨y', hy', rest⟩ := ih htl
          exact ⟨y', List.mem_cons_of_mem _ hy', rest⟩

/-- C3 counterexample: the claim says `relativeDirectory` is relative to
the *resolved* scan root. The code relativizes against the root as
*supplied* (`scan_pdfs` passes its own `root` argument to
`_safe_relpath`, line 108) while the walk yields paths under the
resolved root (line 64). With a symlinked root (supplied
`/home/link`, resolving to `/home/real`) a PDF sitting directly in the
root gets `rel_dir = "/home/real"` — the absolute-parent fallback — where
the claim demands the empty string. -/
theorem c3_counterexample :
    scan_pdfs none [.file "a.pdf" (some ⟨1048576, "t"⟩) false]
      ["home", "link"] ["home", "real"] 0 =
      .ok [⟨1, "/home/real", "a.pdf", 1048576, 1, "/home/real/a.pdf", "t"⟩] ∧
    (⟨1, "/home/real", "a.pdf", 1048576, 1, "/home/real/a.pdf", "t"⟩ : ScanResult).rel_dir ≠ "" := by
  constructor
  · simp +decide [scan_pdfs, iter_pdf_files, walkAux, dirStep, buildResults,
      _safe_relpath, renderRel, renderAbs, renumber, List.insertionSort,
      List.orderedInsert, _human_mb, round3]
    norm_num [round_eq]
  · decide

/-- C3 amended: `relativeDirectory` is the parent directory's path
relative to the scan root *as supplied*: when the supplied root is
already fully resolved (supplied = resolved) every record's `rel_dir` is
the parent path relative to the resolved root, with `""` when the file
sits directly in the root; when the supplied root is not a prefix of the
parent path (the relative computation fails), the absolute parent path
is used instead of failing the scan. -/
theorem c3_relative_directory {rootErr : Option OSErr} {rc : List Entry}
    {rg rr : List String} {depth : Int} {l : List ScanResult}
    (h : scan_pdfs rootErr rc rg rr depth = .ok l) :
    ∀ r ∈ l, ∃ p : List String,
      r.full_path = renderAbs ((rr ++ p) ++ [r.filename]) ∧
      (rg = rr → r.rel_dir = (if renderRel p = "." then "" else renderRel p)) ∧
      (¬ List.isPrefixOf rg (rr ++ p) = true → r.rel_dir = renderAbs (rr ++ p)) := by
  obtain ⟨ys, -, rfl⟩ := scan_pdfs_ok h
  intro r hr
  obtain ⟨a, ha, j, rfl⟩ := mem_renumber hr
  rw [List.mem_insertionSort] at ha
  obtain ⟨y, -, st, -, hfn, hfp, hrd, -, -, -⟩ := mem_buildResults ha
  refine ⟨y.relPath, ?_, ?_, ?_⟩
  · show a.full_path = renderAbs ((rr ++ y.relPath) ++ [a.filename])
    rw [hfp]
    show _ = renderAbs ((rr ++ y.relPath) ++ [a.filename])
    rw [show a.filename = y.name from hfn]
  · intro hrg
    subst hrg
    show a.rel_dir = _
    rw [hrd]
    have hpre : _safe_relpath (rg ++ y.relPath) rg = renderRel y.relPath := by
      unfold _safe_relpath
      have hip := List.isPrefixOf_iff_prefix.mpr (List.prefix_append rg y.relPath)
      rw [if_pos hip, List.drop_left]
    rw [hpre]
  · intro hnp
    show a.rel_dir = _
    rw [hrd]
    have habs : _safe_relpath (rr ++ y.relPath) rg = renderAbs (rr ++ y.relPath) := by
      unfold _safe_relpath
      rw [if_neg (fun hc => hnp hc)]
    rw [habs, if_neg (renderAbs_ne_dot _)]

theorem c3_witness :
    ∃ p : List String,
      (⟨2, "sub", "b.pdf", 5242880, 5, "/r/sub/b.pdf", "2024-01-02 00:00:00"⟩ : ScanResult).full_path =
        renderAbs (((["r"] : List String) ++ p) ++
          [(⟨2, "sub", "b.pdf", 5242880, 5, "/r/sub/b.pdf", "2024-01-02 00:00:00"⟩ : ScanResult).filename]) ∧
      ((["r"] : List String) = ["r"] →
        (⟨2, "sub", "b.pdf", 5242880, 5, "/r/sub/b.pdf", "2024-01-02 00:00:00"⟩ : ScanResult).rel_dir =
          (if renderRel p = "." then "" else renderRel p)) ∧
      (¬ List.isPrefixOf ["r"] ((["r"] : List String) ++ p) = true →
        (⟨2, "sub", "b.pdf", 5242880, 5, "/r/sub/b.pdf", "2024-01-02 00:00:00"⟩ : ScanResult).rel_dir =
          renderAbs ((["r"] : List String) ++ p)) :=
  @c3_relative_directory none fsExample ["r"] ["r"] 1
    [⟨1, "", "a.pdf", 10485760, 10, "/r/a.pdf", "2024-01-01 00:00:00"⟩,
     ⟨2, "sub", "b.pdf", 5242880, 5, "/r/sub/b.pdf", "2024-01-02 00:00:00"⟩]
    (by
      simp +decide [scan_pdfs, iter_pdf_files, walkAux, dirStep, fsExample,
        buildResults, _safe_relpath, renderRel, renderAbs, renumber,
        List.insertionSort, List.orderedInsert, _human_mb, round3]
      norm_num [round_eq])
    ⟨2, "sub", "b.pdf", 5242880, 5, "/r/sub/b.pdf", "2024-01-02 00:00:00"⟩
    (by decide)

/-- C6: Summary aggregates — in the summary sheet, the `PDF数量` cell
equals the number of detail-sheet data rows, the `总大小(Bytes)` cell
equals the exact sum of the byte-size column over all detail-sheet data
rows, and the `总大小(MB)` cell is that sum divided by `1024*1024`
rounded to 3 decimals via the same `_human_mb` rounding rule used for
each record's `size_mb`. -/
theorem c6_summary_totals (root : String) (depth : Int) (results : List ScanResult) :
    (export_summary_rows root depth results)[2]? =
      some [.str "PDF数量", .nat ((export_detail_rows results).length - 1)] ∧
    (export_summary_rows root depth results)[3]? =
      some [.str "总大小(Bytes)",
        .nat (((export_detail_rows results).drop 1).map rowBytes).sum] ∧
    (export_summary_rows root depth results)[4]? =
      some [.str "总大小(MB)",
        .rat (_human_mb ((((export_detail_rows results).drop 1).map rowBytes).sum))] := by
  have hsum : (((export_detail_rows results).drop 1).map rowBytes) =
      results.map (fun r => r.size_bytes) := by
    simp only [export_detail_rows, List.drop_succ_cons, List.drop_zero, List.map_map]
    exact List.map_congr_left (fun r _ => rfl)
  refine ⟨?_, ?_, ?_⟩
  · simp only [export_summary_rows, List.cons_append, List.getElem?_cons_succ,
      List.getElem?_cons_zero, Option.some.injEq]
    simp [export_detail_rows]
  · rw [hsum]
    simp only [export_summary_rows, List.cons_append, List.getElem?_cons_succ,
      List.getElem?_cons_zero]
  · rw [hsum]
    simp only [export_summary_rows, List.cons_append, List.getElem?_cons_succ,
      List.getElem?_cons_zero]
    rfl

theorem topRowsFrom_length (i : Nat) (l : List ScanResult) :
    (topRowsFrom i l).length = l.length := by
  induction l generalizing i with
  | nil => rfl
  | cons r rs ih => simp [topRowsFrom, ih]

theorem topRowsFrom_get (l : List ScanResult) :
    ∀ (j i : Nat), (topRowsFrom j l)[i]? = (l[i]?).map
      (fun r => [Cell.nat (j + i), .str r.filename, .rat r.size_mb, .str r.rel_dir]) := by
  induction l with
  | nil => intro j i; simp [topRowsFrom]
  | cons r rs ih =>
      intro j i
      cases i with
      | zero => simp [topRowsFrom]
      | succ i =>
          simp only [topRowsFrom, List.getElem?_cons_succ, ih (j + 1) i]
          have : j + 1 + i = j + (i + 1) := by omega
          rw [this]

/-- C7: Top-N excerpt — the excerpt rows of the summary sheet (rows 8
onward) are exactly `topRowsFrom 1 (results.take 20)`: the excerpt has
`min 20 N` rows, its `i`-th row is built from the `i`-th record of the
full ranked list (so the excerpt is a prefix of the detail-sheet order),
and its sequence number is `i + 1`, 1-based within the excerpt. -/
theorem c7_top_excerpt (root : String) (depth : Int) (results : List ScanResult) :
    (export_summary_rows root depth results).drop 8 = topRowsFrom 1 (results.take 20) ∧
    (topRowsFrom 1 (results.take 20)).length = min 20 results.length ∧
    (∀ i : Nat, i < 20 →
      (topRowsFrom 1 (results.take 20))[i]? = (results[i]?).map
        (fun r => [Cell.nat (i + 1), .str r.filename, .rat r.size_mb, .str r.rel_dir])) := by
  refine ⟨?_, ?_, ?_⟩
  · simp [export_summary_rows]
  · rw [topRowsFrom_length, List.length_take]
  · intro i hi
    rw [topRowsFrom_get, List.getElem?_take_of_lt hi]
    have : 1 + i = i + 1 := by omega
    rw [this]

theorem c7_witness :
    (topRowsFrom 1 (([(⟨1, "", "a.pdf", 3, 0, "/r/a.pdf", "t"⟩ : ScanResult)]).take 20))[0]? =
      some [Cell.nat 1, .str "a.pdf", .rat 0, .str ""] :=
  ((c7_top_excerpt "r" 1 [⟨1, "", "a.pdf", 3, 0, "/r/a.pdf", "t"⟩]).2.2 0 (by decide)).trans
    (by rfl)
